import Mathlib

/-!
Verification development for the training control loop of the vocal-remover
repository (`train.py`).  The numeric values that the program computes with
IEEE floats (losses, rates, learning rates) are modelled as exact rationals
(`ℚ`); machine integers are `ℕ`/`ℤ`; numpy arrays are `List`s; the mutable
state of `main`'s epoch loop is threaded explicitly.
-/

namespace VocalRemover

/-- A (mixture_path, instrumental_path) pair, as produced by zipping the two
sorted directory listings in `train_val_split`.  Identity is the pair of
paths. -/
abbrev FilePair := String × String

/-- Python slice `l[:-v]` for a non-negative int `v`.  Note the Python
anomaly this embeds faithfully: for `v = 0` the slice is `l[:0] = []`,
while for `v > 0` it is the first `length - v` elements. -/
def pySliceInit (v : ℕ) (l : List α) : List α :=
  if v = 0 then [] else l.take (l.length - v)

/-- Python slice `l[-v:]` for a non-negative int `v`.  For `v = 0` this is
`l[0:] = l` (the whole list), while for `v > 0` it is the last `min v
length` elements. -/
def pySliceLast (v : ℕ) (l : List α) : List α :=
  if v = 0 then l else l.drop (l.length - v)

/-- Embedding of `train_val_split` (train.py lines 17-45) from the point
where the shuffled pair list exists.  The directory listing, extension
filtering, sorting and `random.shuffle` produce `filelist`; the JSON
manifest file read produces `val_manifest` (with `none` for the
`--val_filelist` argument being absent).  `int(len(filelist) * val_rate)`
truncates toward zero, which for the non-negative rates the program uses
equals the floor. -/
def train_val_split (filelist : List FilePair) (val_rate : ℚ)
    (val_manifest : Option (List FilePair)) : List FilePair × List FilePair :=
  if (val_manifest.getD []).length = 0 then
    (pySliceInit ((⌊(filelist.length : ℚ) * val_rate⌋).toNat) filelist,
     pySliceLast ((⌊(filelist.length : ℚ) * val_rate⌋).toNat) filelist)
  else
    (filelist.filter (fun pair => decide (pair ∉ val_manifest.getD [])),
     val_manifest.getD [])

/-- Embedding of the numpy fancy-index assignment `X_train[perm] = oracle_X`
(train.py lines 168-170): position `perm[j]` of the base array receives
`vals[j]`, writes applied in order (later writes win, matching numpy's
buffered semantics when `perm` has no duplicates -- and the program's
`perm` is a permutation, hence duplicate-free). -/
def scatter : List ℕ → List α → List α → List α
  | [], _, base => base
  | _ :: _, [], base => base
  | p :: ps, v :: vs, base => scatter ps vs (base.set p v)

/-- Contiguous chunks of size `bs`, embedding the batching loop
`for i in range(0, len(X_train), bs)` of `train_inner_epoch` (train.py
line 52); the last chunk may be shorter.  (Python would reject a zero
step; the `bs = 0` branch is a harmless totalisation.) -/
def listChunks (bs : ℕ) : List α → List (List α)
  | [] => []
  | x :: xs =>
    if bs = 0 then [x :: xs]
    else (x :: xs).take bs :: listChunks bs (xs.drop (bs - 1))
termination_by l => l.length
decreasing_by simp [List.length_drop]; omega

/-- The vectorised accumulation
`instance_loss[local_perm] += abs_diff.data.mean(axis=(1, 2, 3))`
(train.py lines 67-68) for one batch: each original index `idx` in the
chunk receives this batch's per-instance loss `lossOf idx` added in place.
`lossOf` abstracts the model's per-instance mean absolute error as a
function of the original (pre-shuffle) index. -/
def accumList (lossOf : ℕ → ℚ) (ids : List ℕ) (acc : List ℚ) : List ℚ :=
  ids.foldl (fun a idx => a.set idx (a.getD idx 0 + lossOf idx)) acc

/-- Effect of one `train_inner_epoch` call on the `instance_loss` vector:
the shuffled permutation `perm` is walked in chunks of `bs` and every
visited index accumulates its per-instance loss. -/
def train_inner_epoch (bs : ℕ) (perm : List ℕ) (lossOf : ℕ → ℚ)
    (acc : List ℚ) : List ℚ :=
  (listChunks bs perm).foldl (fun a chunk => accumList lossOf chunk a) acc

/-- The inner-epoch loop of `main` (train.py lines 174-177): each inner
epoch `k` contributes its own fresh shuffle `permOf k` and per-instance
losses `lossOf k` to the shared accumulator. -/
def runInnerEpochs (bs : ℕ) : List (List ℕ × (ℕ → ℚ)) → List ℚ → List ℚ
  | [], acc => acc
  | e :: es, acc => runInnerEpochs bs es (train_inner_epoch bs e.1 e.2 acc)

/-- The oracle-selection signal: `instance_loss` starts as
`np.zeros(len(X_train))` at the top of the epoch (train.py line 173) and is
divided by `args.inner_epoch` before `get_oracle_data` (line 202). -/
def oracleSignal (bs n : ℕ) (es : List (List ℕ × (ℕ → ℚ))) : List ℚ :=
  (runInnerEpochs bs es (List.replicate n 0)).map (fun x => x / (es.length : ℚ))

/-- Concrete two-inner-epoch schedule over a 3-entry training set, used by
the witness below: two different shuffles and per-instance loss profiles. -/
def exampleInnerEpochs : List (List ℕ × (ℕ → ℚ)) :=
  [([0, 1, 2], fun i => (i : ℚ)), ([2, 0, 1], fun _ => 1)]

/-- Scheduling hyperparameters of `main` relevant to checkpointing and
learning-rate decay (`--inner_epoch`, `--lr_decay_interval`, `--lr_decay`,
`--lr_min`). -/
structure Config where
  inner_epoch : ℕ
  lr_decay_interval : ℕ
  lr_decay : ℚ
  lr_min : ℚ

/-- The mutable scalars of `main`'s epoch loop (train.py lines 154-199),
plus two ghost logs recording at which global inner-epoch steps a
checkpoint was saved and at which steps an LR decay fired.  `best_loss`
is `Option ℚ`, with `none` standing for the initial `np.inf`. -/
structure TrainState where
  best_count : ℕ
  best_loss : Option ℚ
  alpha : ℚ
  ckpt_steps : List ℕ
  decay_steps : List ℕ

/-- The comparison `valid_loss < best_loss` where `best_loss` may be the
initial `np.inf` (every finite loss improves on it). -/
def improves (l : ℚ) : Option ℚ → Prop
  | none => True
  | some b => l < b

instance (l : ℚ) : (b : Option ℚ) → Decidable (improves l b)
  | none => isTrue trivial
  | some v => inferInstanceAs (Decidable (l < v))

/-- The decay trigger `epoch > 1 and best_count >= args.lr_decay_interval`
(train.py line 195), with the epoch index recovered from the global
inner-epoch step `t` as `t / inner_epoch`. -/
def decayCond (cfg : Config) (t : ℕ) (b : ℕ) : Prop :=
  1 < t / cfg.inner_epoch ∧ cfg.lr_decay_interval ≤ b

instance (cfg : Config) (t b : ℕ) : Decidable (decayCond cfg t b) :=
  inferInstanceAs (Decidable (_ ∧ _))

/-- The checkpoint decision (train.py lines 188-193): on strict
improvement reset `best_count`, lower `best_loss` and record a checkpoint
save at step `t`. -/
def checkpointDecision (t : ℕ) (valid_loss : ℚ) (st : TrainState) :
    TrainState :=
  if improves valid_loss st.best_loss then
    { st with
        best_count := 0
        best_loss := some valid_loss
        ckpt_steps := st.ckpt_steps ++ [t] }
  else st

/-- The learning-rate decay decision (train.py lines 195-198): past epoch
index 1, once `best_count` reaches the interval, reset it, multiply the
rate by `lr_decay` and floor the result at `lr_min`. -/
def lrDecayDecision (cfg : Config) (t : ℕ) (st : TrainState) : TrainState :=
  if decayCond cfg t st.best_count then
    { st with
        best_count := 0
        decay_steps := st.decay_steps ++ [t]
        alpha := max (st.alpha * cfg.lr_decay) cfg.lr_min }
  else st

/-- One inner-epoch step of `main`'s bookkeeping (train.py lines 187-199):
`best_count += 1`, then the checkpoint decision, then the decay
decision. -/
def innerStep (cfg : Config) (t : ℕ) (valid_loss : ℚ) (st : TrainState) :
    TrainState :=
  lrDecayDecision cfg t
    (checkpointDecision t valid_loss { st with best_count := st.best_count + 1 })

/-- Run the bookkeeping over a list of validation losses, one per global
inner-epoch step, starting at step `t`. -/
def runFrom (cfg : Config) (t : ℕ) (st : TrainState) : List ℚ → TrainState
  | [] => st
  | l :: ls => runFrom cfg (t + 1) (innerStep cfg t l st) ls

/-- `best_count = 0`, `best_loss = np.inf`, the CLI learning rate, no
checkpoints, no decays (train.py lines 136, 157-158). -/
def initState (lr : ℚ) : TrainState := ⟨0, none, lr, [], []⟩

/-- A whole run: the flattened sequence of validation losses of all
epochs' inner-epochs, processed from step 0. -/
def runSteps (cfg : Config) (lr : ℚ) (losses : List ℚ) : TrainState :=
  runFrom cfg 0 (initState lr) losses

/-- Running minimum of a loss list on top of a previous best (`none` is
`np.inf`); mirrors how `best_loss` evolves. -/
def runMin (b : Option ℚ) (ls : List ℚ) : Option ℚ :=
  ls.foldl (fun acc l => if improves l acc then some l else acc) b

/-- Spec-side improvement test at step `t`: the step's loss is strictly
below every earlier loss of the run. -/
def improvesAt (losses : List ℚ) (t : ℕ) : Prop :=
  ∀ x ∈ losses.take t, losses.getD t 0 < x

instance (losses : List ℚ) (t : ℕ) : Decidable (improvesAt losses t) :=
  List.decidableBAll _ _

/-- Spec-side recursion for `best_count` after `t` steps: reset to 0 on
improvement and on decay, incremented otherwise. -/
def specBestCount (cfg : Config) (losses : List ℚ) : ℕ → ℕ
  | 0 => 0
  | t + 1 =>
    if decayCond cfg t
        (if improvesAt losses t then 0 else specBestCount cfg losses t + 1)
    then 0
    else if improvesAt losses t then 0 else specBestCount cfg losses t + 1

/-- State carried across epochs by `main`'s outer loop that is relevant to
the oracle mechanism: the oracle patches selected in the previous epoch
(`oracle_X`/`oracle_y`, `none` initially), a ghost counter of calls to
`dataset.get_oracle_data`, and a ghost log of the training set (mixture
and instrumental arrays) with which each epoch entered its inner-epoch
loop. -/
structure EpochState (α : Type) where
  oracle : Option (List α × List α)
  selectCalls : ℕ
  usedSets : List (List α × List α)

/-- One epoch of `main`'s outer loop (train.py lines 159-208) restricted
to the data-curation flow: build the epoch's fresh training set (`fresh e`
abstracts `dataset.make_training_set`, with mixup already applied when
enabled), inject the previous epoch's oracle patches through the drawn
permutation `injPerm e` if there are any, run the inner epochs on the
result (recorded in `usedSets`), and, only when `oracle_rate > 0`, call
the selection function (`select` abstracts `dataset.get_oracle_data`) to
produce the next epoch's oracle patches. -/
def epochStep (oracle_rate : ℚ) (fresh : ℕ → List α × List α)
    (select : List α × List α → List α × List α)
    (injPerm : ℕ → List ℕ) (e : ℕ) (st : EpochState α) : EpochState α :=
  let T : List α × List α :=
    match st.oracle with
    | some oxy =>
        (scatter (injPerm e) oxy.1 (fresh e).1, scatter (injPerm e) oxy.2 (fresh e).2)
    | none => fresh e
  if 0 < oracle_rate then
    { oracle := some (select T)
      selectCalls := st.selectCalls + 1
      usedSets := st.usedSets ++ [T] }
  else
    { oracle := st.oracle
      selectCalls := st.selectCalls
      usedSets := st.usedSets ++ [T] }

/-- Run `E` epochs of the outer loop from the initial state (`oracle_X =
oracle_y = None`, train.py lines 155-156). -/
def runEpochs (oracle_rate : ℚ) (fresh : ℕ → List α × List α)
    (select : List α × List α → List α × List α)
    (injPerm : ℕ → List ℕ) (E : ℕ) : EpochState α :=
  (List.range E).foldl
    (fun st e => epochStep oracle_rate fresh select injPerm e st)
    ⟨none, 0, []⟩

/-- C8: with `oracle_rate = 0` the oracle mechanism is entirely disabled:
over any number of epochs the selection function is never called, no
oracle patches are ever produced, and every epoch enters its inner-epoch
loop with exactly its freshly-built training set. -/

theorem train_val_split_no_manifest (filelist : List FilePair) (val_rate : ℚ)
    (manifest : Option (List FilePair)) (h : (manifest.getD []).length = 0) :
    train_val_split filelist val_rate manifest =
      (pySliceInit ((⌊(filelist.length : ℚ) * val_rate⌋).toNat) filelist,
       pySliceLast ((⌊(filelist.length : ℚ) * val_rate⌋).toNat) filelist) := by
  unfold train_val_split
  rw [if_pos h]

theorem train_val_split_some_manifest (filelist m : List FilePair)
    (val_rate : ℚ) (hne : m ≠ []) :
    train_val_split filelist val_rate (some m) =
      (filelist.filter (fun pair => decide (pair ∉ m)), m) := by
  unfold train_val_split
  rw [if_neg (by simpa [List.length_eq_zero] using hne)]
  simp only [Option.getD_some]

theorem pySliceInit_append_pySliceLast (v : ℕ) (l : List α) :
    pySliceInit v l ++ pySliceLast v l = l := by
  unfold pySliceInit pySliceLast
  by_cases h : v = 0
  · simp [h]
  · simp [h, List.take_append_drop]

/-- C2 (code behaviour at the failing input): with a 5-pair corpus,
`val_rate = 0.1` and no manifest, `val_size = int(5 * 0.1) = 0`, so the
Python slices `filelist[:-0]` and `filelist[-0:]` make the train list
empty and the validation list the whole corpus -- the opposite of the
specified fractional cut. -/
theorem train_val_split_zero_val_size_eval :
    train_val_split
      [("m0.wav", "i0.wav"), ("m1.wav", "i1.wav"), ("m2.wav", "i2.wav"),
       ("m3.wav", "i3.wav"), ("m4.wav", "i4.wav")] (1 / 10) none
    = ([],
       [("m0.wav", "i0.wav"), ("m1.wav", "i1.wav"), ("m2.wav", "i2.wav"),
        ("m3.wav", "i3.wav"), ("m4.wav", "i4.wav")]) := by
  rw [train_val_split_no_manifest _ _ _ (by decide)]
  have hfloor : (⌊((List.length
      [(("m0.wav", "i0.wav") : FilePair), ("m1.wav", "i1.wav"), ("m2.wav", "i2.wav"),
       ("m3.wav", "i3.wav"), ("m4.wav", "i4.wav")] : ℚ)) * (1 / 10)⌋).toNat = 0 := by
    norm_num
  rw [hfloor]
  decide

/-- C3: for every duplicate-free corpus (directory listings contain each
path once, so the zipped pair list has no duplicates) and any manifest
whose pairs all belong to the corpus (including no manifest at all),
`train_val_split` partitions the corpus: train and validation lists cover
it set-wise and share no pair. -/
theorem train_val_split_partition (filelist : List FilePair) (val_rate : ℚ)
    (manifest : Option (List FilePair)) (hnd : filelist.Nodup)
    (hsub : ∀ m, manifest = some m → ∀ p ∈ m, p ∈ filelist) :
    (∀ p, (p ∈ (train_val_split filelist val_rate manifest).1 ∨
           p ∈ (train_val_split filelist val_rate manifest).2) ↔ p ∈ filelist)
    ∧ ∀ p, ¬(p ∈ (train_val_split filelist val_rate manifest).1 ∧
             p ∈ (train_val_split filelist val_rate manifest).2) := by
  by_cases h : (manifest.getD []).length = 0
  · rw [train_val_split_no_manifest filelist val_rate manifest h]
    constructor
    · intro p
      rw [← List.mem_append, pySliceInit_append_pySliceLast]
    · intro p hp
      have hnd' : (pySliceInit ((⌊(filelist.length : ℚ) * val_rate⌋).toNat) filelist
          ++ pySliceLast ((⌊(filelist.length : ℚ) * val_rate⌋).toNat) filelist).Nodup := by
        rw [pySliceInit_append_pySliceLast]; exact hnd
      exact List.disjoint_of_nodup_append hnd' hp.1 hp.2
  · rcases manifest with _ | m
    · simp at h
    · have hne : m ≠ [] := by
        intro hm
        simp [hm] at h
      rw [train_val_split_some_manifest filelist m val_rate hne]
      have hm : ∀ p ∈ m, p ∈ filelist := hsub m rfl
      constructor
      · intro p
        constructor
        · rintro (hp | hp)
          · exact (List.mem_filter.mp hp).1
          · exact hm p hp
        · intro hp
          by_cases hpm : p ∈ m
          · exact Or.inr hpm
          · exact Or.inl (List.mem_filter.mpr ⟨hp, by simpa using hpm⟩)
      · intro p hp
        have := (List.mem_filter.mp hp.1).2
        simp at this
        exact this hp.2

/-- Witness for C3: the spec's end-to-end scenario, a 20-pair corpus with
`val_rate = 0.2`, together with the concrete sizes 16 and 4. -/
theorem train_val_split_partition_witness :
    ([("00", "00"), ("01", "01"), ("02", "02"), ("03", "03"), ("04", "04"),
      ("05", "05"), ("06", "06"), ("07", "07"), ("08", "08"), ("09", "09"),
      ("10", "10"), ("11", "11"), ("12", "12"), ("13", "13"), ("14", "14"),
      ("15", "15"), ("16", "16"), ("17", "17"), ("18", "18"), ("19", "19")]
        : List FilePair).Nodup
    ∧ ((∀ p, (p ∈ (train_val_split
          [("00", "00"), ("01", "01"), ("02", "02"), ("03", "03"), ("04", "04"),
           ("05", "05"), ("06", "06"), ("07", "07"), ("08", "08"), ("09", "09"),
           ("10", "10"), ("11", "11"), ("12", "12"), ("13", "13"), ("14", "14"),
           ("15", "15"), ("16", "16"), ("17", "17"), ("18", "18"), ("19", "19")]
          (1 / 5) none).1 ∨
         p ∈ (train_val_split
          [("00", "00"), ("01", "01"), ("02", "02"), ("03", "03"), ("04", "04"),
           ("05", "05"), ("06", "06"), ("07", "07"), ("08", "08"), ("09", "09"),
           ("10", "10"), ("11", "11"), ("12", "12"), ("13", "13"), ("14", "14"),
           ("15", "15"), ("16", "16"), ("17", "17"), ("18", "18"), ("19", "19")]
          (1 / 5) none).2) ↔ p ∈
          [("00", "00"), ("01", "01"), ("02", "02"), ("03", "03"), ("04", "04"),
           ("05", "05"), ("06", "06"), ("07", "07"), ("08", "08"), ("09", "09"),
           ("10", "10"), ("11", "11"), ("12", "12"), ("13", "13"), ("14", "14"),
           ("15", "15"), ("16", "16"), ("17", "17"), ("18", "18"), ("19", "19")])
       ∧ ∀ p, ¬(p ∈ (train_val_split
          [("00", "00"), ("01", "01"), ("02", "02"), ("03", "03"), ("04", "04"),
           ("05", "05"), ("06", "06"), ("07", "07"), ("08", "08"), ("09", "09"),
           ("10", "10"), ("11", "11"), ("12", "12"), ("13", "13"), ("14", "14"),
           ("15", "15"), ("16", "16"), ("17", "17"), ("18", "18"), ("19", "19")]
          (1 / 5) none).1 ∧
         p ∈ (train_val_split
          [("00", "00"), ("01", "01"), ("02", "02"), ("03", "03"), ("04", "04"),
           ("05", "05"), ("06", "06"), ("07", "07"), ("08", "08"), ("09", "09"),
           ("10", "10"), ("11", "11"), ("12", "12"), ("13", "13"), ("14", "14"),
           ("15", "15"), ("16", "16"), ("17", "17"), ("18", "18"), ("19", "19")]
          (1 / 5) none).2)) :=
  ⟨by decide,
   train_val_split_partition _ (1 / 5) none (by decide) (by intro m hm; cases hm)⟩

/-- C4: with a non-empty manifest whose pairs lie in the corpus, the
validation list is the manifest verbatim and the train list is set-wise
exactly the corpus pairs not in the manifest, so no pair is in both. -/
theorem train_val_split_with_manifest (filelist m : List FilePair)
    (val_rate : ℚ) (hne : m ≠ []) (hsub : ∀ p ∈ m, p ∈ filelist) :
    (train_val_split filelist val_rate (some m)).2 = m
    ∧ (∀ p, p ∈ (train_val_split filelist val_rate (some m)).1 ↔
        p ∈ filelist ∧ p ∉ m)
    ∧ ∀ p, ¬(p ∈ (train_val_split filelist val_rate (some m)).1 ∧
             p ∈ (train_val_split filelist val_rate (some m)).2) := by
  rw [train_val_split_some_manifest filelist m val_rate hne]
  refine ⟨rfl, ?_, ?_⟩
  · intro p
    constructor
    · intro hp
      have h := List.mem_filter.mp hp
      refine ⟨h.1, ?_⟩
      simpa using h.2
    · intro hp
      exact List.mem_filter.mpr ⟨hp.1, by simpa using hp.2⟩
  · intro p hp
    have h := List.mem_filter.mp hp.1
    have := h.2
    simp at this
    exact this hp.2

/-- Witness for C4 at a concrete 3-pair corpus and 1-pair manifest. -/
theorem train_val_split_with_manifest_witness :
    (([("b", "b")] : List FilePair) ≠ [] ∧ ∀ p ∈ ([("b", "b")] : List FilePair),
      p ∈ ([("a", "a"), ("b", "b"), ("c", "c")] : List FilePair))
    ∧ ((train_val_split [("a", "a"), ("b", "b"), ("c", "c")] (1 / 10)
          (some [("b", "b")])).2 = [("b", "b")]
      ∧ (∀ p, p ∈ (train_val_split [("a", "a"), ("b", "b"), ("c", "c")] (1 / 10)
          (some [("b", "b")])).1 ↔
          p ∈ ([("a", "a"), ("b", "b"), ("c", "c")] : List FilePair)
            ∧ p ∉ ([("b", "b")] : List FilePair))
      ∧ ∀ p, ¬(p ∈ (train_val_split [("a", "a"), ("b", "b"), ("c", "c")] (1 / 10)
          (some [("b", "b")])).1 ∧
          p ∈ (train_val_split [("a", "a"), ("b", "b"), ("c", "c")] (1 / 10)
          (some [("b", "b")])).2)) :=
  ⟨⟨by decide, by decide⟩,
   train_val_split_with_manifest _ _ (1 / 10) (by decide) (by decide)⟩

/-- Embedding of the numpy fancy-index assignment `X_train[perm] = oracle_X`
(train.py lines 168-170): position `perm[j]` of the base array receives
`vals[j]`, writes applied in order (later writes win, matching numpy's
buffered semantics when `perm` has no duplicates -- and the program's
`perm` is a permutation, hence duplicate-free). -/

theorem scatter_length (ps : List ℕ) (vs : List α) (base : List α) :
    (scatter ps vs base).length = base.length := by
  induction ps generalizing vs base with
  | nil => rfl
  | cons p ps ih =>
    cases vs with
    | nil => rfl
    | cons v vs => simp [scatter, ih, List.length_set]

theorem scatter_getElem?_of_not_mem (ps : List ℕ) (vs : List α) (base : List α)
    (i : ℕ) (hi : i ∉ ps) : (scatter ps vs base)[i]? = base[i]? := by
  induction ps generalizing vs base with
  | nil => rfl
  | cons p ps ih =>
    cases vs with
    | nil => rfl
    | cons v vs =>
      have hip : i ∉ ps := fun h => hi (List.mem_cons_of_mem p h)
      have hne : p ≠ i := fun h => hi (h ▸ List.mem_cons_self p ps)
      rw [scatter, ih vs _ hip, List.getElem?_set_ne hne]

theorem scatter_getElem?_at_perm (ps : List ℕ) (vs : List α) (base : List α)
    (hnd : ps.Nodup) (hb : ∀ q ∈ ps, q < base.length) :
    ∀ j (hj : j < ps.length), j < vs.length →
      (scatter ps vs base)[ps.get ⟨j, hj⟩]? = vs[j]? := by
  induction ps generalizing vs base with
  | nil => intro j hj; simp at hj
  | cons p ps ih =>
    cases vs with
    | nil => intro j hj hjv; simp at hjv
    | cons v vs =>
      intro j hj hjv
      cases j with
      | zero =>
        have hp : p ∉ ps := (List.nodup_cons.mp hnd).1
        rw [scatter, List.get]
        rw [scatter_getElem?_of_not_mem ps vs _ p hp]
        rw [List.getElem?_set_eq_of_lt v (hb p (List.mem_cons_self p ps))]
        simp
      | succ j =>
        have hnd' : ps.Nodup := (List.nodup_cons.mp hnd).2
        have hb' : ∀ q ∈ ps, q < (base.set p v).length := by
          intro q hq
          rw [List.length_set]
          exact hb q (List.mem_cons_of_mem p hq)
        have := ih vs (base.set p v) hnd' hb' j (Nat.lt_of_succ_lt_succ hj)
          (Nat.lt_of_succ_lt_succ hjv)
        simpa [scatter, List.get] using this

/-- C10: the same index permutation is written into both the mixture and
instrumental arrays, so after injection every index `i` either keeps the
freshly-built pair `(X[i], y[i])` in both arrays, or holds the oracle pair
`(oX[j], oY[j])` coming from the same oracle slot `j` in both arrays. -/
theorem oracle_inject_preserves_pairing (perm : List ℕ) (oX oY X y : List α)
    (hnd : perm.Nodup) (hb : ∀ q ∈ perm, q < X.length)
    (hXy : X.length = y.length) (hoX : oX.length = perm.length)
    (hoY : oY.length = perm.length) :
    ∀ i, i < X.length →
      ((scatter perm oX X)[i]? = X[i]? ∧ (scatter perm oY y)[i]? = y[i]?)
      ∨ ∃ j, ∃ hj : j < perm.length, perm.get ⟨j, hj⟩ = i ∧
          (scatter perm oX X)[i]? = oX[j]? ∧ (scatter perm oY y)[i]? = oY[j]? := by
  intro i hi
  by_cases hmem : i ∈ perm
  · right
    obtain ⟨⟨j, hj⟩, hget⟩ := List.get_of_mem hmem
    refine ⟨j, hj, hget, ?_, ?_⟩
    · rw [← hget]
      exact scatter_getElem?_at_perm perm oX X hnd hb j hj (hoX ▸ hj)
    · rw [← hget]
      exact scatter_getElem?_at_perm perm oY y hnd (fun q hq => hXy ▸ hb q hq)
        j hj (hoY ▸ hj)
  · left
    exact ⟨scatter_getElem?_of_not_mem perm oX X i hmem,
           scatter_getElem?_of_not_mem perm oY y i hmem⟩

/-- Witness for C10: a 3-entry training set with 2 oracle patches injected
through the permutation `[2, 0]`. -/
theorem oracle_inject_preserves_pairing_witness :
    (([2, 0] : List ℕ).Nodup ∧ (∀ q ∈ ([2, 0] : List ℕ), q < 3))
    ∧ ∀ i, i < ([1, 2, 3] : List ℕ).length →
        ((scatter [2, 0] [7, 8] [1, 2, 3])[i]? = ([1, 2, 3] : List ℕ)[i]? ∧
         (scatter [2, 0] [70, 80] [10, 20, 30])[i]? = ([10, 20, 30] : List ℕ)[i]?)
        ∨ ∃ j, ∃ hj : j < ([2, 0] : List ℕ).length,
            ([2, 0] : List ℕ).get ⟨j, hj⟩ = i ∧
            (scatter [2, 0] [7, 8] [1, 2, 3])[i]? = ([7, 8] : List ℕ)[j]? ∧
            (scatter [2, 0] [70, 80] [10, 20, 30])[i]? = ([70, 80] : List ℕ)[j]? :=
  ⟨⟨by decide, by decide⟩,
   oracle_inject_preserves_pairing [2, 0] [7, 8] [70, 80] [1, 2, 3] [10, 20, 30]
     (by decide) (by decide) (by decide) (by decide) (by decide)⟩

/-- C1 counterexample: in the source the injection positions are
`np.random.permutation(len(oracle_X))`, a permutation of `0..k-1`, not a
random size-`k` subset of all training indices.  With a training set of 3
entries and `k = 2` oracle patches, every one of the two possible draws
(`List.permutations'` of `range 2` enumerates them; `List.mem_permutations'`
says this enumeration is complete) leaves training index 2 untouched, so
the overwritten-position set is always `{0, 1}` and can never be, e.g.,
`{1, 2}`. -/
theorem oracle_inject_positions_fixed_cex :
    ((List.range 2).permutations'.all
      (fun perm => decide ((scatter perm [77, 88] [10, 20, 30])[2]? = some 30)))
      = true
    ∧ (List.range 2).permutations' = [[0, 1], [1, 0]]
    ∧ scatter [0, 1] [77, 88] [10, 20, 30] = [77, 88, 30]
    ∧ scatter [1, 0] [77, 88] [10, 20, 30] = [88, 77, 30] := by
  refine ⟨by decide, by decide, by decide, by decide⟩

/-- C1 as amended: given `k` oracle patches and a training set of `n ≥ k`
entries, the injection overwrites exactly the positions `0..k-1` (each
receiving the oracle patch whose slot the random permutation assigns
there), and every position `≥ k` keeps its freshly-built entry; the
injection happens before the epoch's inner-epochs run (the inner-epoch
loop receives the scattered arrays, see the epoch-loop model below). -/
theorem oracle_inject_overwrites_initial_segment (k n : ℕ) (perm : List ℕ)
    (oX X : List α) (hperm : perm.Perm (List.range k))
    (hoX : oX.length = k) (hX : X.length = n) (hkn : k ≤ n) :
    (∀ i, i < k → ∃ j, ∃ hj : j < perm.length, perm.get ⟨j, hj⟩ = i ∧
        (scatter perm oX X)[i]? = oX[j]?)
    ∧ ∀ i, k ≤ i → (scatter perm oX X)[i]? = X[i]? := by
  have hnd : perm.Nodup := hperm.nodup_iff.mpr (List.nodup_range k)
  have hmem : ∀ q, q ∈ perm ↔ q < k := by
    intro q
    rw [hperm.mem_iff, List.mem_range]
  have hb : ∀ q ∈ perm, q < X.length := by
    intro q hq
    rw [hX]
    exact Nat.lt_of_lt_of_le ((hmem q).mp hq) hkn
  have hlen : perm.length = k := by
    have := hperm.length_eq
    simpa [List.length_range] using this
  constructor
  · intro i hi
    obtain ⟨⟨j, hj⟩, hget⟩ := List.get_of_mem ((hmem i).mpr hi)
    refine ⟨j, hj, hget, ?_⟩
    rw [← hget]
    exact scatter_getElem?_at_perm perm oX X hnd hb j hj (by omega)
  · intro i hik
    refine scatter_getElem?_of_not_mem perm oX X i ?_
    intro hmem'
    exact absurd ((hmem i).mp hmem') (by omega)

/-- Witness for C1's amended statement: `k = 2` patches injected through
the draw `[1, 0]` into a 3-entry training set. -/
theorem oracle_inject_overwrites_initial_segment_witness :
    (([1, 0] : List ℕ).Perm (List.range 2) ∧
      ([77, 88] : List ℕ).length = 2 ∧ ([10, 20, 30] : List ℕ).length = 3 ∧ 2 ≤ 3)
    ∧ ((∀ i, i < 2 → ∃ j, ∃ hj : j < ([1, 0] : List ℕ).length,
          ([1, 0] : List ℕ).get ⟨j, hj⟩ = i ∧
          (scatter [1, 0] [77, 88] [10, 20, 30])[i]? = ([77, 88] : List ℕ)[j]?)
       ∧ ∀ i, 2 ≤ i →
          (scatter [1, 0] [77, 88] [10, 20, 30])[i]? = ([10, 20, 30] : List ℕ)[i]?) :=
  ⟨⟨by decide, by decide, by decide, by decide⟩,
   oracle_inject_overwrites_initial_segment 2 3 [1, 0] [77, 88] [10, 20, 30]
     (by decide) (by decide) (by decide) (by decide)⟩

/-- Contiguous chunks of size `bs`, embedding the batching loop
`for i in range(0, len(X_train), bs)` of `train_inner_epoch` (train.py
line 52); the last chunk may be shorter.  (Python would reject a zero
step; the `bs = 0` branch is a harmless totalisation.) -/

theorem listChunks_flatten (bs : ℕ) (l : List α) :
    (listChunks bs l).flatten = l := by
  induction l using listChunks.induct bs with
  | case1 => rw [listChunks]; rfl
  | case2 x xs h => rw [listChunks, if_pos h]; simp
  | case3 x xs h ih =>
    rw [listChunks, if_neg h, List.flatten_cons, ih]
    cases bs with
    | zero => exact absurd rfl h
    | succ b =>
      simp only [List.take_succ_cons, Nat.add_sub_cancel, List.cons_append,
        List.cons.injEq, true_and]
      exact List.take_append_drop b xs

/-- The vectorised accumulation
`instance_loss[local_perm] += abs_diff.data.mean(axis=(1, 2, 3))`
(train.py lines 67-68) for one batch: each original index `idx` in the
chunk receives this batch's per-instance loss `lossOf idx` added in place.
`lossOf` abstracts the model's per-instance mean absolute error as a
function of the original (pre-shuffle) index. -/

theorem accumList_append (lossOf : ℕ → ℚ) (l₁ l₂ : List ℕ) (acc : List ℚ) :
    accumList lossOf (l₁ ++ l₂) acc = accumList lossOf l₂ (accumList lossOf l₁ acc) :=
  List.foldl_append ..

theorem train_inner_epoch_eq_accumList (bs : ℕ) (perm : List ℕ)
    (lossOf : ℕ → ℚ) (acc : List ℚ) :
    train_inner_epoch bs perm lossOf acc = accumList lossOf perm acc := by
  have key : ∀ (L : List (List ℕ)) (a : List ℚ),
      L.foldl (fun a chunk => accumList lossOf chunk a) a = accumList lossOf L.flatten a := by
    intro L
    induction L with
    | nil => intro a; rfl
    | cons c L ih =>
      intro a
      rw [List.foldl_cons, ih, List.flatten_cons, accumList_append]
  rw [train_inner_epoch, key, listChunks_flatten]

theorem accumList_length (lossOf : ℕ → ℚ) (ids : List ℕ) (acc : List ℚ) :
    (accumList lossOf ids acc).length = acc.length := by
  induction ids generalizing acc with
  | nil => rfl
  | cons idx ids ih =>
    show (accumList lossOf ids _).length = acc.length
    rw [ih, List.length_set]

theorem accumList_getElem?_of_not_mem (lossOf : ℕ → ℚ) (ids : List ℕ)
    (acc : List ℚ) (i : ℕ) (hi : i ∉ ids) :
    (accumList lossOf ids acc)[i]? = acc[i]? := by
  induction ids generalizing acc with
  | nil => rfl
  | cons idx ids ih =>
    have hne : idx ≠ i := fun h => hi (h ▸ List.mem_cons_self idx ids)
    have hi' : i ∉ ids := fun h => hi (List.mem_cons_of_mem idx h)
    show (accumList lossOf ids _)[i]? = acc[i]?
    rw [ih _ hi', List.getElem?_set_ne hne]

theorem accumList_getElem?_of_mem (lossOf : ℕ → ℚ) (ids : List ℕ)
    (acc : List ℚ) (hnd : ids.Nodup) (hb : ∀ q ∈ ids, q < acc.length)
    (i : ℕ) (hi : i ∈ ids) :
    (accumList lossOf ids acc)[i]? = some (acc.getD i 0 + lossOf i) := by
  induction ids generalizing acc with
  | nil => cases hi
  | cons idx ids ih =>
    rcases List.mem_cons.mp hi with rfl | hmem
    · have hidx : i ∉ ids := (List.nodup_cons.mp hnd).1
      show (accumList lossOf ids _)[i]? = _
      rw [accumList_getElem?_of_not_mem lossOf ids _ i hidx,
        List.getElem?_set_eq_of_lt _ (hb i (List.mem_cons_self i ids))]
    · have hne : idx ≠ i := by
        rintro rfl
        exact (List.nodup_cons.mp hnd).1 hmem
      have hb' : ∀ q ∈ ids, q < (acc.set idx (acc.getD idx 0 + lossOf idx)).length := by
        intro q hq
        rw [List.length_set]
        exact hb q (List.mem_cons_of_mem idx hq)
      show (accumList lossOf ids _)[i]? = _
      rw [ih _ (List.nodup_cons.mp hnd).2 hb' hmem]
      have : (acc.set idx (acc.getD idx 0 + lossOf idx)).getD i 0 = acc.getD i 0 := by
        rw [List.getD_eq_getElem?_getD, List.getElem?_set_ne hne,
          ← List.getD_eq_getElem?_getD]
      rw [this]

theorem runInnerEpochs_getElem? (bs n : ℕ) (es : List (List ℕ × (ℕ → ℚ)))
    (h : ∀ e ∈ es, e.1.Perm (List.range n)) (acc : List ℚ)
    (hacc : acc.length = n) (i : ℕ) (hi : i < n) :
    (runInnerEpochs bs es acc)[i]? =
      some (acc.getD i 0 + (es.map (fun e => e.2 i)).sum) := by
  induction es generalizing acc with
  | nil =>
    have hilen : i < acc.length := hacc ▸ hi
    simp [runInnerEpochs, List.getElem?_eq_getElem hilen,
      List.getD_eq_getElem?_getD, List.getElem?_eq_getElem hilen]
  | cons e es ih =>
    have hperm : e.1.Perm (List.range n) := h e (List.mem_cons_self e es)
    have hmem : i ∈ e.1 := hperm.mem_iff.mpr (List.mem_range.mpr hi)
    have hnd : e.1.Nodup := hperm.nodup_iff.mpr (List.nodup_range n)
    have hb : ∀ q ∈ e.1, q < acc.length := by
      intro q hq
      rw [hacc]
      exact List.mem_range.mp (hperm.mem_iff.mp hq)
    rw [runInnerEpochs, train_inner_epoch_eq_accumList,
      ih (fun e' he' => h e' (List.mem_cons_of_mem e he'))
        _ ((accumList_length e.2 e.1 acc).trans hacc)]
    have hval : (accumList e.2 e.1 acc).getD i 0 = acc.getD i 0 + e.2 i := by
      rw [List.getD_eq_getElem?_getD,
        accumList_getElem?_of_mem e.2 e.1 acc hnd hb i hmem]
      rfl
    rw [hval, List.map_cons, List.sum_cons, add_assoc]

theorem replicate_getD_zero (n i : ℕ) : (List.replicate n (0 : ℚ)).getD i 0 = 0 := by
  simp [List.getD_eq_getElem?_getD]

/-- C7: within one epoch the `instance_loss` vector starts from zeros, is
accumulated additively at the original pre-shuffle indices, and after the
K inner-epochs its entry at every index equals the index-wise sum of the K
independent single-inner-epoch accumulations (each started from zeros);
dividing by the inner-epoch count then yields the oracle-selection
signal, the index-wise mean. -/
theorem instance_loss_additive (bs n : ℕ) (es : List (List ℕ × (ℕ → ℚ)))
    (h : ∀ e ∈ es, e.1.Perm (List.range n)) :
    ∀ i, i < n →
      (runInnerEpochs bs es (List.replicate n 0))[i]? =
        some ((es.map (fun e =>
          (train_inner_epoch bs e.1 e.2 (List.replicate n 0)).getD i 0)).sum)
      ∧ (oracleSignal bs n es)[i]? =
        some ((es.map (fun e =>
          (train_inner_epoch bs e.1 e.2 (List.replicate n 0)).getD i 0)).sum
            / (es.length : ℚ)) := by
  intro i hi
  have hsingle : ∀ e ∈ es,
      (train_inner_epoch bs e.1 e.2 (List.replicate n 0)).getD i 0 = e.2 i := by
    intro e he
    have hperm := h e he
    have hnd : e.1.Nodup := hperm.nodup_iff.mpr (List.nodup_range n)
    have hb : ∀ q ∈ e.1, q < (List.replicate n (0 : ℚ)).length := by
      intro q hq
      rw [List.length_replicate]
      exact List.mem_range.mp (hperm.mem_iff.mp hq)
    have hmem : i ∈ e.1 := hperm.mem_iff.mpr (List.mem_range.mpr hi)
    rw [train_inner_epoch_eq_accumList, List.getD_eq_getElem?_getD,
      accumList_getElem?_of_mem e.2 e.1 _ hnd hb i hmem,
      Option.getD_some, replicate_getD_zero, zero_add]
  have hmain : (runInnerEpochs bs es (List.replicate n 0))[i]? =
      some ((es.map (fun e => e.2 i)).sum) := by
    rw [runInnerEpochs_getElem? bs n es h _ (List.length_replicate n 0) i hi,
      replicate_getD_zero, zero_add]
  have hmaps : es.map (fun e =>
      (train_inner_epoch bs e.1 e.2 (List.replicate n 0)).getD i 0) =
      es.map (fun e => e.2 i) := List.map_congr_left hsingle
  constructor
  · rw [hmain, hmaps]
  · rw [oracleSignal, List.getElem?_map, hmain, hmaps]
    rfl

/-- Witness for C7 at `exampleInnerEpochs` with batch size 2. -/
theorem instance_loss_additive_witness :
    (∀ e ∈ exampleInnerEpochs, e.1.Perm (List.range 3))
    ∧ ∀ i, i < 3 →
      (runInnerEpochs 2 exampleInnerEpochs (List.replicate 3 0))[i]? =
        some ((exampleInnerEpochs.map (fun e =>
          (train_inner_epoch 2 e.1 e.2 (List.replicate 3 0)).getD i 0)).sum)
      ∧ (oracleSignal 2 3 exampleInnerEpochs)[i]? =
        some ((exampleInnerEpochs.map (fun e =>
          (train_inner_epoch 2 e.1 e.2 (List.replicate 3 0)).getD i 0)).sum
            / (exampleInnerEpochs.length : ℚ)) :=
  ⟨by
    intro e he
    simp only [exampleInnerEpochs, List.mem_cons, List.not_mem_nil, or_false] at he
    rcases he with rfl | rfl <;> decide,
   fun i hi => instance_loss_additive 2 3 exampleInnerEpochs
     (by
       intro e he
       simp only [exampleInnerEpochs, List.mem_cons, List.not_mem_nil, or_false] at he
       rcases he with rfl | rfl <;> decide) i hi⟩

/-- Scheduling hyperparameters of `main` relevant to checkpointing and
learning-rate decay (`--inner_epoch`, `--lr_decay_interval`, `--lr_decay`,
`--lr_min`). -/

theorem checkpointDecision_fields (t : ℕ) (l : ℚ) (st : TrainState) :
    (checkpointDecision t l st).best_loss =
        (if improves l st.best_loss then some l else st.best_loss)
    ∧ (checkpointDecision t l st).ckpt_steps =
        (if improves l st.best_loss then st.ckpt_steps ++ [t] else st.ckpt_steps)
    ∧ (checkpointDecision t l st).best_count =
        (if improves l st.best_loss then 0 else st.best_count)
    ∧ (checkpointDecision t l st).alpha = st.alpha
    ∧ (checkpointDecision t l st).decay_steps = st.decay_steps := by
  unfold checkpointDecision
  split_ifs <;> exact ⟨rfl, rfl, rfl, rfl, rfl⟩

theorem lrDecayDecision_fields (cfg : Config) (t : ℕ) (st : TrainState) :
    (lrDecayDecision cfg t st).best_loss = st.best_loss
    ∧ (lrDecayDecision cfg t st).ckpt_steps = st.ckpt_steps
    ∧ (lrDecayDecision cfg t st).best_count =
        (if decayCond cfg t st.best_count then 0 else st.best_count)
    ∧ (lrDecayDecision cfg t st).alpha =
        (if decayCond cfg t st.best_count
         then max (st.alpha * cfg.lr_decay) cfg.lr_min else st.alpha)
    ∧ (lrDecayDecision cfg t st).decay_steps =
        (if decayCond cfg t st.best_count
         then st.decay_steps ++ [t] else st.decay_steps) := by
  unfold lrDecayDecision
  split_ifs <;> exact ⟨rfl, rfl, rfl, rfl, rfl⟩

theorem innerStep_best_loss (cfg : Config) (t : ℕ) (l : ℚ) (st : TrainState) :
    (innerStep cfg t l st).best_loss =
      if improves l st.best_loss then some l else st.best_loss := by
  rw [innerStep, (lrDecayDecision_fields cfg t _).1,
    (checkpointDecision_fields t l _).1]

theorem innerStep_ckpt_steps (cfg : Config) (t : ℕ) (l : ℚ) (st : TrainState) :
    (innerStep cfg t l st).ckpt_steps =
      if improves l st.best_loss then st.ckpt_steps ++ [t] else st.ckpt_steps := by
  rw [innerStep, (lrDecayDecision_fields cfg t _).2.1,
    (checkpointDecision_fields t l _).2.1]

theorem innerStep_best_count (cfg : Config) (t : ℕ) (l : ℚ) (st : TrainState) :
    (innerStep cfg t l st).best_count =
      if decayCond cfg t (if improves l st.best_loss then 0 else st.best_count + 1)
      then 0
      else if improves l st.best_loss then 0 else st.best_count + 1 := by
  rw [innerStep, (lrDecayDecision_fields cfg t _).2.2.1,
    (checkpointDecision_fields t l _).2.2.1]

theorem innerStep_alpha (cfg : Config) (t : ℕ) (l : ℚ) (st : TrainState) :
    (innerStep cfg t l st).alpha =
      if decayCond cfg t (if improves l st.best_loss then 0 else st.best_count + 1)
      then max (st.alpha * cfg.lr_decay) cfg.lr_min
      else st.alpha := by
  rw [innerStep, (lrDecayDecision_fields cfg t _).2.2.2.1,
    (checkpointDecision_fields t l _).2.2.1,
    (checkpointDecision_fields t l _).2.2.2.1]

theorem innerStep_decay_steps (cfg : Config) (t : ℕ) (l : ℚ) (st : TrainState) :
    (innerStep cfg t l st).decay_steps =
      if decayCond cfg t (if improves l st.best_loss then 0 else st.best_count + 1)
      then st.decay_steps ++ [t]
      else st.decay_steps := by
  rw [innerStep, (lrDecayDecision_fields cfg t _).2.2.2.2,
    (checkpointDecision_fields t l _).2.2.1,
    (checkpointDecision_fields t l _).2.2.2.2]

theorem runFrom_best_loss (cfg : Config) (ls : List ℚ) :
    ∀ (t : ℕ) (st : TrainState),
      (runFrom cfg t st ls).best_loss = runMin st.best_loss ls := by
  induction ls with
  | nil => intro t st; rfl
  | cons l ls ih =>
    intro t st
    rw [runFrom, ih]
    show runMin _ ls = runMin _ (l :: ls)
    rw [innerStep_best_loss]
    rfl

theorem improves_runMin (l : ℚ) (ls : List ℚ) :
    ∀ b : Option ℚ,
      improves l (runMin b ls) ↔ improves l b ∧ ∀ x ∈ ls, l < x := by
  induction ls with
  | nil =>
    intro b
    simp [runMin]
  | cons x ls ih =>
    intro b
    show improves l (runMin (if improves x b then some x else b) ls) ↔ _
    rw [ih]
    constructor
    · rintro ⟨h1, h2⟩
      by_cases hxb : improves x b
      · rw [if_pos hxb] at h1
        have hlx : l < x := h1
        refine ⟨?_, ?_⟩
        · cases b with
          | none => trivial
          | some v =>
            exact lt_trans hlx hxb
        · intro y hy
          rcases List.mem_cons.mp hy with rfl | hy'
          · exact hlx
          · exact h2 y hy'
      · rw [if_neg hxb] at h1
        cases b with
        | none => exact absurd trivial hxb
        | some v =>
          have hvx : v ≤ x := le_of_not_lt hxb
          refine ⟨h1, ?_⟩
          intro y hy
          rcases List.mem_cons.mp hy with rfl | hy'
          · exact lt_of_lt_of_le h1 hvx
          · exact h2 y hy'
    · rintro ⟨h1, h2⟩
      have hlx : l < x := h2 x (List.mem_cons_self x ls)
      refine ⟨?_, fun y hy => h2 y (List.mem_cons_of_mem x hy)⟩
      by_cases hxb : improves x b
      · rw [if_pos hxb]
        exact hlx
      · rw [if_neg hxb]
        exact h1

theorem runFrom_ckpt_mem (cfg : Config) (ls : List ℚ) :
    ∀ (t : ℕ) (st : TrainState) (s : ℕ),
      s ∈ (runFrom cfg t st ls).ckpt_steps ↔
        s ∈ st.ckpt_steps ∨ ∃ j, j < ls.length ∧ s = t + j ∧
          improves (ls.getD j 0) (runMin st.best_loss (ls.take j)) := by
  induction ls with
  | nil =>
    intro t st s
    simp [runFrom]
  | cons l ls ih =>
    intro t st s
    rw [runFrom, ih]
    rw [innerStep_ckpt_steps, innerStep_best_loss]
    have htake : ∀ j : ℕ, runMin (if improves l st.best_loss then some l else st.best_loss)
        (ls.take j) = runMin st.best_loss ((l :: ls).take (j + 1)) := by
      intro j
      rfl
    constructor
    · rintro (hmem | ⟨j, hj, hs, himp⟩)
      · by_cases hl : improves l st.best_loss
        · rw [if_pos hl] at hmem
          rcases List.mem_append.mp hmem with hmem' | hmem'
          · exact Or.inl hmem'
          · refine Or.inr ⟨0, by simp, ?_, ?_⟩
            · simpa using List.mem_singleton.mp hmem'
            · simpa [runMin] using hl
        · rw [if_neg hl] at hmem
          exact Or.inl hmem
      · refine Or.inr ⟨j + 1, by simpa using hj, by omega, ?_⟩
        rw [← htake j]
        simpa using himp
    · rintro (hmem | ⟨j, hj, hs, himp⟩)
      · left
        by_cases hl : improves l st.best_loss
        · rw [if_pos hl]
          exact List.mem_append.mpr (Or.inl hmem)
        · rw [if_neg hl]
          exact hmem
      · cases j with
        | zero =>
          left
          have hl : improves l st.best_loss := by
            simpa [runMin] using himp
          rw [if_pos hl]
          refine List.mem_append.mpr (Or.inr ?_)
          simp [hs]
        | succ j =>
          refine Or.inr ⟨j, by simpa using hj, by omega, ?_⟩
          rw [htake j]
          simpa using himp

theorem runFrom_append (cfg : Config) (l1 l2 : List ℚ) :
    ∀ (t : ℕ) (st : TrainState),
      runFrom cfg t st (l1 ++ l2) =
        runFrom cfg (t + l1.length) (runFrom cfg t st l1) l2 := by
  induction l1 with
  | nil => intro t st; simp [runFrom]
  | cons l l1 ih =>
    intro t st
    have h : t + 1 + l1.length = t + (l :: l1).length := by
      simp [List.length_cons]
      omega
    rw [List.cons_append, runFrom, runFrom, ih, h]

/-- C5: across a whole run a checkpoint is written at a global inner-epoch
step `t` if and only if that step's validation loss is strictly smaller
than every earlier step's validation loss; `best_loss` starts at infinity
(`none`), and a run of a single step always checkpoints at step 0, sets
`best_loss` to that loss and resets `best_count` to 0. -/
theorem checkpoint_iff_strict_improvement (cfg : Config) (lr : ℚ)
    (losses : List ℚ) :
    (initState lr).best_loss = none
    ∧ (∀ t, t ∈ (runSteps cfg lr losses).ckpt_steps ↔
        t < losses.length ∧ improvesAt losses t)
    ∧ ∀ l : ℚ, runSteps cfg lr [l] = ⟨0, some l, lr, [0], []⟩ := by
  refine ⟨rfl, ?_, ?_⟩
  · intro t
    rw [runSteps, runFrom_ckpt_mem cfg losses 0 (initState lr) t]
    constructor
    · rintro (hmem | ⟨j, hj, hs, himp⟩)
      · simp [initState] at hmem
      · have hj' : t = j := by omega
        subst hj'
        refine ⟨hj, ?_⟩
        have := (improves_runMin (losses.getD t 0) (losses.take t) none).mp
          (by simpa [initState] using himp)
        exact this.2
    · rintro ⟨ht, himp⟩
      refine Or.inr ⟨t, ht, by omega, ?_⟩
      show improves (losses.getD t 0) (runMin (initState lr).best_loss (losses.take t))
      rw [improves_runMin]
      exact ⟨trivial, himp⟩
  · intro l
    show innerStep cfg 0 l (initState lr) = _
    rw [innerStep]
    simp [initState, checkpointDecision, lrDecayDecision, improves, decayCond,
      Nat.zero_div]

/-- Witness for C5: with unit inner-epoch count and losses `[3, 2, 5]`,
step 1 improves on all earlier losses and indeed appears among the
checkpoint steps. -/
theorem checkpoint_iff_strict_improvement_witness :
    (1 < ([3, 2, 5] : List ℚ).length ∧ improvesAt [3, 2, 5] 1)
    ∧ 1 ∈ (runSteps ⟨1, 6, 0, 0⟩ 1 [3, 2, 5]).ckpt_steps :=
  ⟨⟨by decide, by decide⟩,
   ((checkpoint_iff_strict_improvement ⟨1, 6, 0, 0⟩ 1 [3, 2, 5]).2.1 1).mpr
     ⟨by decide, by decide⟩⟩

/-- C6: the decay update multiplies the learning rate by `lr_decay` and
floors the result at `lr_min`, so after any run in which at least one
decay fired the learning rate is at least `lr_min`; and every step at
which a decay fired lies at epoch index 2 or later. -/
theorem lr_decay_floored_and_late (cfg : Config) (lr : ℚ) (losses : List ℚ) :
    ((runSteps cfg lr losses).decay_steps ≠ [] →
      cfg.lr_min ≤ (runSteps cfg lr losses).alpha)
    ∧ ∀ t ∈ (runSteps cfg lr losses).decay_steps, 2 ≤ t / cfg.inner_epoch := by
  have key : ∀ (ls : List ℚ) (t : ℕ) (st : TrainState),
      (st.decay_steps ≠ [] → cfg.lr_min ≤ st.alpha) →
      (∀ u ∈ st.decay_steps, 2 ≤ u / cfg.inner_epoch) →
      ((runFrom cfg t st ls).decay_steps ≠ [] →
        cfg.lr_min ≤ (runFrom cfg t st ls).alpha)
      ∧ ∀ u ∈ (runFrom cfg t st ls).decay_steps, 2 ≤ u / cfg.inner_epoch := by
    intro ls
    induction ls with
    | nil => intro t st h1 h2; exact ⟨h1, h2⟩
    | cons l ls ih =>
      intro t st h1 h2
      rw [runFrom]
      refine ih (t + 1) (innerStep cfg t l st) ?_ ?_
      · rw [innerStep_alpha, innerStep_decay_steps]
        by_cases hd : decayCond cfg t
            (if improves l st.best_loss then 0 else st.best_count + 1)
        · rw [if_pos hd, if_pos hd]
          intro _
          exact le_max_right _ _
        · rw [if_neg hd, if_neg hd]
          exact h1
      · rw [innerStep_decay_steps]
        by_cases hd : decayCond cfg t
            (if improves l st.best_loss then 0 else st.best_count + 1)
        · rw [if_pos hd]
          intro u hu
          rcases List.mem_append.mp hu with hu' | hu'
          · exact h2 u hu'
          · have : u = t := List.mem_singleton.mp hu'
            subst this
            exact hd.1
        · rw [if_neg hd]
          exact h2
  exact key losses 0 (initState lr) (fun h => absurd rfl h) (by simp [initState])

/-- Witness for C6: with `inner_epoch = 1` and `lr_decay_interval = 1`, the
constant loss sequence `[1, 1, 1]` makes a decay fire at step 2, and the
resulting learning rate is still at least `lr_min = 0`. -/
theorem lr_decay_floored_and_late_witness :
    (runSteps ⟨1, 1, 0, 0⟩ 1 [1, 1, 1]).decay_steps ≠ []
    ∧ (0 : ℚ) ≤ (runSteps ⟨1, 1, 0, 0⟩ 1 [1, 1, 1]).alpha
    ∧ ∀ t ∈ (runSteps ⟨1, 1, 0, 0⟩ 1 [1, 1, 1]).decay_steps, 2 ≤ t / 1 :=
  ⟨by decide,
   (lr_decay_floored_and_late ⟨1, 1, 0, 0⟩ 1 [1, 1, 1]).1 (by decide),
   (lr_decay_floored_and_late ⟨1, 1, 0, 0⟩ 1 [1, 1, 1]).2⟩

/-- C9 counterexample: with `inner_epoch = 4` and constant validation loss
1 over one epoch's four inner-epoch steps, the only improvement is at step
0 (`ckpt_steps = [0]`), all four steps lie in epoch 0 (`3 / 4 = 0`), so
the number of epochs since the last improvement is 0, yet `best_count`
ends at 3: it counts inner-epoch steps, not epochs. -/
theorem best_count_not_epochs_cex :
    (runSteps ⟨4, 6, 0, 0⟩ 1 [1, 1, 1, 1]).best_count = 3
    ∧ (runSteps ⟨4, 6, 0, 0⟩ 1 [1, 1, 1, 1]).ckpt_steps = [0]
    ∧ 3 / (4 : ℕ) = 0 / (4 : ℕ)
    ∧ (3 : ℕ) ≠ 0 := by
  refine ⟨by decide, by decide, by decide, by decide⟩

/-- C9 as amended: `best_count` equals the number of inner-epoch steps
(not epochs) since the most recent reset, where a reset happens when the
validation loss strictly improves on all earlier losses and also when an
LR decay fires; in particular it is reset to 0 on every improvement. -/
theorem best_count_tracks_resets (cfg : Config) (lr : ℚ) (losses : List ℚ) :
    (∀ t, t ≤ losses.length →
      (runSteps cfg lr (losses.take t)).best_count = specBestCount cfg losses t)
    ∧ ∀ t, improvesAt losses t → specBestCount cfg losses (t + 1) = 0 := by
  constructor
  · intro t
    induction t with
    | zero =>
      intro _
      simp [runSteps, runFrom, initState, specBestCount]
    | succ t ih =>
      intro h
      have ht : t < losses.length := h
      have hx : losses.take (t + 1) = losses.take t ++ [losses.getD t 0] := by
        rw [List.take_succ, List.getElem?_eq_getElem ht]
        simp [List.getD_eq_getElem?_getD, List.getElem?_eq_getElem ht]
      have hlen : (losses.take t).length = t := by
        rw [List.length_take]
        omega
      rw [runSteps, hx, runFrom_append, hlen, Nat.zero_add]
      show (innerStep cfg t (losses.getD t 0)
        (runFrom cfg 0 (initState lr) (losses.take t))).best_count = _
      rw [innerStep_best_count]
      have hbl : (runFrom cfg 0 (initState lr) (losses.take t)).best_loss =
          runMin none (losses.take t) :=
        runFrom_best_loss cfg (losses.take t) 0 (initState lr)
      have hiff : improves (losses.getD t 0)
          (runFrom cfg 0 (initState lr) (losses.take t)).best_loss ↔
          improvesAt losses t := by
        rw [hbl, improves_runMin]
        simp [improves, improvesAt]
      have hbc : (runFrom cfg 0 (initState lr) (losses.take t)).best_count =
          specBestCount cfg losses t := ih (by omega)
      rw [hbc]
      have hcond : (if improves (losses.getD t 0)
            (runFrom cfg 0 (initState lr) (losses.take t)).best_loss then 0
          else specBestCount cfg losses t + 1) =
          (if improvesAt losses t then 0 else specBestCount cfg losses t + 1) :=
        if_congr hiff rfl rfl
      rw [hcond, specBestCount]
  · intro t h
    simp only [specBestCount, if_pos h]
    split_ifs <;> rfl

/-- Witness for C9's amended statement: two steps of constant loss 1 with
`inner_epoch = 1`; after both steps `best_count` agrees with the spec-side
reset counter, and step 0 (an improvement) resets the counter. -/
theorem best_count_tracks_resets_witness :
    (2 ≤ ([1, 1] : List ℚ).length ∧ improvesAt [1, 1] 0)
    ∧ (runSteps ⟨1, 2, 0, 0⟩ 1 (([1, 1] : List ℚ).take 2)).best_count =
        specBestCount ⟨1, 2, 0, 0⟩ [1, 1] 2
    ∧ specBestCount ⟨1, 2, 0, 0⟩ [1, 1] (0 + 1) = 0 :=
  ⟨⟨by decide, by decide⟩,
   (best_count_tracks_resets ⟨1, 2, 0, 0⟩ 1 [1, 1]).1 2 (by decide),
   (best_count_tracks_resets ⟨1, 2, 0, 0⟩ 1 [1, 1]).2 0 (by decide)⟩

/-- C8: with `oracle_rate = 0` the oracle mechanism is entirely disabled:
over any number of epochs the selection function is never called, no
oracle patches are ever produced, and every epoch enters its inner-epoch
loop with exactly its freshly-built training set. -/
theorem oracle_rate_zero_disables {α : Type} (oracle_rate : ℚ)
    (h : oracle_rate = 0) (fresh : ℕ → List α × List α)
    (select : List α × List α → List α × List α)
    (injPerm : ℕ → List ℕ) (E : ℕ) :
    (runEpochs oracle_rate fresh select injPerm E).selectCalls = 0
    ∧ (runEpochs oracle_rate fresh select injPerm E).oracle = none
    ∧ (runEpochs oracle_rate fresh select injPerm E).usedSets =
        (List.range E).map fresh := by
  have hrate : ¬ (0 < oracle_rate) := by
    rw [h]
    exact lt_irrefl 0
  have key : ∀ (l : List ℕ) (st : EpochState α), st.oracle = none →
      l.foldl (fun st e => epochStep oracle_rate fresh select injPerm e st) st =
        ⟨none, st.selectCalls, st.usedSets ++ l.map fresh⟩ := by
    intro l
    induction l with
    | nil =>
      intro st hst
      cases st with
      | mk o c u =>
        simp at hst
        simp [hst]
    | cons e l ih =>
      intro st hst
      rw [List.foldl_cons]
      have hstep : epochStep oracle_rate fresh select injPerm e st =
          ⟨none, st.selectCalls, st.usedSets ++ [fresh e]⟩ := by
        unfold epochStep
        rw [hst, if_neg hrate]
      rw [hstep, ih _ rfl]
      simp

  rw [runEpochs, key (List.range E) ⟨none, 0, []⟩ rfl]
  simp

/-- Witness for C8: three epochs with concrete collaborators and
`oracle_rate = 0`. -/
theorem oracle_rate_zero_disables_witness :
    ((0 : ℚ) = 0)
    ∧ (runEpochs (α := ℕ) 0 (fun e => ([e], [e + 1])) id (fun _ => []) 3).selectCalls = 0
    ∧ (runEpochs (α := ℕ) 0 (fun e => ([e], [e + 1])) id (fun _ => []) 3).oracle = none
    ∧ (runEpochs (α := ℕ) 0 (fun e => ([e], [e + 1])) id (fun _ => []) 3).usedSets =
        (List.range 3).map (fun e => ([e], [e + 1])) :=
  ⟨rfl, oracle_rate_zero_disables 0 rfl (fun e => ([e], [e + 1])) id (fun _ => []) 3⟩

end VocalRemover
